import Mathlib

/-
Verification development for the shared-mortgage amortization engine
(`amortization_shared` in streamlit_app.py).

The Python function is embedded shallowly over exact rationals (ℚ):

  * the engine's floats become ℚ (the claims under study concern the exact
    arithmetic of the algorithm, not IEEE754 artefacts);
  * the `while balance > 1e-6` loop becomes a fuel-indexed recursion
    `runLoop`; running out of fuel is a distinct observable outcome, so a
    claim of termination is the claim that some fuel amount suffices;
  * `raise ValueError(...)` becomes the `AmortError` outcomes
    `invalidInput` ("...must have the same length") and
    `insufficientPayment` ("...insufficient to cover interest.");
  * Python's `ZeroDivisionError` (float division by zero) is the outcome
    `zeroDivision`.  ℚ division is total (`x / 0 = 0`), so everywhere the
    Python code can divide by zero the embedding tests the denominator
    explicitly: the scheduled-payment formula's denominator, and the
    interest-proration comprehension `[c / contrib_sum * ... ]`, which in
    Python raises iff `contrib_sum == 0` and `monthly_contrib` is nonempty.
    (The remaining division, `balance / principal_paid`, sits under the
    guard `principal_paid > balance`; in every state reachable from
    `runLoop` the loop guard gives `balance > 1e-6 > 0`, hence
    `principal_paid > 0` there, and no zero division can occur.)
  * `round(x, d)` (Python: banker's rounding, half to even) becomes
    `roundTo d`, ideal round-half-to-even on ℚ;
  * the pandas yearly roll-up `groupby("Year").agg("last")` becomes: the
    sorted list of distinct year keys, and for each the last schedule row
    of that year.  (Mathlib's `List.dedup` keeps the last occurrence of
    each duplicated element; on the ascending year column this yields
    exactly the ascending distinct keys that pandas' groupby produces.)
-/

/-- The loop tolerance from `while balance > 1e-6`. -/
def EPS : ℚ := 1 / 1000000

/-- The error outcomes of `amortization_shared`:
`invalidInput` for the length-mismatch `ValueError`, `insufficientPayment`
for the negative-amortization `ValueError`, `zeroDivision` for Python's
`ZeroDivisionError`. -/
inductive AmortError
  | invalidInput
  | insufficientPayment
  | zeroDivision
deriving DecidableEq, Repr

/-- One row of the full schedule: `[pmt_no, principal_paid, interest_due,
balance] + cum_equity` as appended by the loop. -/
structure SRow where
  pmtNo : ℕ
  principalPaid : ℚ
  interestPaid : ℚ
  loanBalance : ℚ
  cumEquity : List ℚ
deriving DecidableEq, Repr

/-- The mutable state of the `while` loop: `balance`, `cum_equity`,
`pmt_no`, and the accumulated `rows`. -/
structure LoopState where
  balance : ℚ
  cumEquity : List ℚ
  pmtNo : ℕ
  rows : List SRow
deriving DecidableEq, Repr

/-- `interest_parts = [c / contrib_sum * interest_due for c in monthly_contrib]`. -/
def interestPartsOf (mc : List ℚ) (contribSum interestDue : ℚ) : List ℚ :=
  mc.map fun c => c / contribSum * interestDue

/-- `principal_parts = [c - i for c, i in zip(monthly_contrib, interest_parts)]`
(with `contrib_sum = sum(monthly_contrib)`). -/
def prePrincipalParts (mc : List ℚ) (interestDue : ℚ) : List ℚ :=
  List.zipWith (fun c i => c - i) mc (interestPartsOf mc mc.sum interestDue)

/-- The per-borrower principal parts after the final-month trimming branch
`if principal_paid > balance: principal_parts = [p * scale for p in principal_parts]`
with `scale = balance / principal_paid`. -/
def postPrincipalParts (mc : List ℚ) (balance interestDue : ℚ) : List ℚ :=
  let pParts := prePrincipalParts mc interestDue
  if balance < pParts.sum then
    pParts.map fun p => p * (balance / pParts.sum)
  else pParts

/-- `principal_paid` after the trimming branch (`principal_paid = balance`
when it triggers). -/
def postPrincipalPaid (mc : List ℚ) (balance interestDue : ℚ) : ℚ :=
  if balance < (prePrincipalParts mc interestDue).sum then balance
  else (prePrincipalParts mc interestDue).sum

/-- The state transformer of one loop iteration, after the two guard
checks have passed: computes `interest_due = balance * m_rate`, the
(possibly trimmed) principal parts, decrements the balance, updates
`cum_equity = [e + p for e, p in zip(cum_equity, principal_parts)]` and
appends the row `[pmt_no, principal_paid, interest_due, balance] + cum_equity`
(rounding of the appended values is applied afterwards, uniformly, by
`roundRow`; see `amortization_shared`). -/
def stepBody (mc : List ℚ) (mRate : ℚ) (s : LoopState) : LoopState where
  balance := s.balance - postPrincipalPaid mc s.balance (s.balance * mRate)
  cumEquity := List.zipWith (fun e p => e + p) s.cumEquity
      (postPrincipalParts mc s.balance (s.balance * mRate))
  pmtNo := s.pmtNo + 1
  rows := s.rows ++
    [{ pmtNo := s.pmtNo + 1
       principalPaid := postPrincipalPaid mc s.balance (s.balance * mRate)
       interestPaid := s.balance * mRate
       loanBalance := s.balance - postPrincipalPaid mc s.balance (s.balance * mRate)
       cumEquity := List.zipWith (fun e p => e + p) s.cumEquity
          (postPrincipalParts mc s.balance (s.balance * mRate)) }]

/-- One iteration of the loop body: the negative-amortization guard
`if contrib_sum < interest_due: raise`, then the proration comprehension
(which in Python raises `ZeroDivisionError` iff `contrib_sum == 0` and the
contribution list is nonempty), then `stepBody`. -/
def step (mc : List ℚ) (mRate : ℚ) (s : LoopState) : Except AmortError LoopState :=
  if mc.sum < s.balance * mRate then .error .insufficientPayment
  else if mc.sum = 0 ∧ mc ≠ [] then .error .zeroDivision
  else .ok (stepBody mc mRate s)

/-- Outcome of running the loop on a given amount of fuel. -/
inductive LoopOut
  | done (s : LoopState)
  | err (e : AmortError)
  | outOfFuel (s : LoopState)
deriving DecidableEq, Repr

/-- `true` iff the loop ran out of fuel (i.e. was still running). -/
def LoopOut.isOutOfFuel : LoopOut → Bool
  | .outOfFuel _ => true
  | _ => false

/-- `while balance > 1e-6:` as fuel-indexed recursion. -/
def runLoop (mc : List ℚ) (mRate : ℚ) : ℕ → LoopState → LoopOut
  | 0, s => if EPS < s.balance then .outOfFuel s else .done s
  | fuel + 1, s =>
      if EPS < s.balance then
        match step mc mRate s with
        | .error e => .err e
        | .ok s₁ => runLoop mc mRate fuel s₁
      else .done s

/-- `balance = loan_amount; cum_equity = downpayments[:]; pmt_no = 0; rows = []`. -/
def initState (loan : ℚ) (dp : List ℚ) : LoopState where
  balance := loan
  cumEquity := dp
  pmtNo := 0
  rows := []

/-- Ideal round-half-to-even to an integer (Python's `round` on exact
values). -/
def roundHalfEven (q : ℚ) : ℤ :=
  let n := ⌊q⌋
  let frac := q - n
  if frac < 1 / 2 then n
  else if 1 / 2 < frac then n + 1
  else if n % 2 = 0 then n else n + 1

/-- `round(q, d)`: round half to even at `d` decimal digits. -/
def roundTo (d : ℕ) (q : ℚ) : ℚ :=
  (roundHalfEven (q * 10 ^ d) : ℚ) / 10 ^ d

/-- The `round(·, rounding)` applied to every numeric cell of an appended
row. -/
def roundRow (d : ℕ) (r : SRow) : SRow where
  pmtNo := r.pmtNo
  principalPaid := roundTo d r.principalPaid
  interestPaid := roundTo d r.interestPaid
  loanBalance := roundTo d r.loanBalance
  cumEquity := r.cumEquity.map (roundTo d)

/-- `schedule["Year"] = (schedule["Payment #"] - 1) // 12 + 1`. -/
def yearOf (p : ℕ) : ℕ := (p - 1) / 12 + 1

/-- One row of the yearly roll-up: the `"last"`-aggregated equity and
balance columns plus the derived `Total Equity` and `Share` columns. -/
structure YRow where
  year : ℕ
  cumEquity : List ℚ
  loanBalance : ℚ
  totalEquity : ℚ
  share : List ℚ
deriving DecidableEq, Repr

/-- The pandas block: `yearly = schedule.groupby("Year").agg({... : "last"})`
followed by `yearly["Total Equity"] = sum of equity columns` and
`yearly[Share_i] = yearly[Equity_i] / yearly["Total Equity"]`.
The group keys are the distinct values of the ascending `Year` column, in
ascending order; each group is aggregated to the last schedule row whose
year equals the key.  (In pandas `x / 0` yields `inf`/`NaN`; in ℚ it is
`0` — the claim audit below exhibits this at `Total Equity = 0`.) -/
def yearlyRollup (sched : List SRow) : List YRow :=
  let years := (sched.map fun r => yearOf r.pmtNo).dedup
  years.filterMap fun y =>
    ((sched.filter fun r => yearOf r.pmtNo = y).getLast?).map fun r =>
      { year := y
        cumEquity := r.cumEquity
        loanBalance := r.loanBalance
        totalEquity := r.cumEquity.sum
        share := r.cumEquity.map fun e => e / r.cumEquity.sum }

/-- Result of `amortization_shared`: the `(schedule, yearly)` pair, an
error, or — since the source loop has no iteration cap — exhaustion of the
modelling fuel. -/
inductive AmortResult
  | ok (schedule : List SRow) (yearly : List YRow)
  | err (e : AmortError)
  | outOfFuel
deriving DecidableEq, Repr

/-- The full engine.  In source order: the length-match check
(`raise ValueError` on mismatch); the scheduled-payment formula
`loan * (m_rate * (1+m_rate)^(12T)) / ((1+m_rate)^(12T) - 1)`, whose value
is never used afterwards but whose denominator raises `ZeroDivisionError`
when it is zero (in particular at `annual_rate = 0`); the main loop; the
rounding of the appended rows; the yearly roll-up. -/
def amortization_shared (loan rate : ℚ) (termYears : ℕ) (mc dp : List ℚ)
    (rounding : ℕ) (fuel : ℕ) : AmortResult :=
  if dp.length ≠ mc.length then .err .invalidInput
  else
    let mRate := rate / 12
    if (1 + mRate) ^ (termYears * 12) - 1 = 0 then .err .zeroDivision
    else
      match runLoop mc mRate fuel (initState loan dp) with
      | .done s =>
          let schedule := s.rows.map (roundRow rounding)
          .ok schedule (yearlyRollup schedule)
      | .err e => .err e
      | .outOfFuel _ => .outOfFuel

/-- The run of the engine on `loan = 0.3`, `annualRate = 0.12`,
`termYears = 1`, `monthlyContribution = [0.2]`, `downPayment = [0]`,
`roundingDigits = 2`: two payments, the second trimmed to the remaining
balance.
Used as a concrete instance in several witnesses below. -/
def schedEx : List SRow :=
  [⟨1, 1/5, 0, 1/10, [1/5]⟩, ⟨2, 1/10, 0, 0, [3/10]⟩]

/-- The yearly roll-up of `schedEx`. -/
def yearlyEx : List YRow := [⟨1, [3/10], 0, 3/10, [1]⟩]

/-- The same run rounded at 0 digits: every displayed cell rounds to 0,
so the year-end `Total Equity` is 0 and the share column divides by
zero. -/
def schedEx0 : List SRow :=
  [⟨1, 0, 0, 0, [0]⟩, ⟨2, 0, 0, 0, [0]⟩]

/-- The yearly roll-up of `schedEx0`: `share = [0/0] = [0]` (Python/pandas
produce `NaN` here). -/
def yearlyEx0 : List YRow := [⟨1, [0], 0, 0, [0]⟩]

/-- A run that exits the loop without the trimming branch: `loan = 2e-6`,
`annualRate = 0.36`, `monthlyContribution = [1.5e-6]`: after one payment
the balance is `6e-7 ∈ (0, EPS]`, and at `roundingDigits = 7` it is
displayed as `6e-7 ≠ 0`. -/
def schedEx7 : List SRow :=
  [⟨1, 7/5000000, 1/10000000, 3/5000000, [7/5000000]⟩]

/-- The yearly roll-up of `schedEx7`. -/
def yearlyEx7 : List YRow :=
  [⟨1, [7/5000000], 3/5000000, 7/5000000, [1]⟩]

/-! Basic facts about the per-period arithmetic. -/

theorem interestPartsOf_length (mc : List ℚ) (S I : ℚ) :
    (interestPartsOf mc S I).length = mc.length := by
  simp [interestPartsOf]

theorem sum_map_div_mul (l : List ℚ) (S I : ℚ) :
    (l.map fun c => c / S * I).sum = l.sum / S * I := by
  induction l with
  | nil => simp
  | cons a t ih => simp [ih, add_div, add_mul]

theorem interestPartsOf_sum (mc : List ℚ) (I : ℚ) (h : mc.sum ≠ 0) :
    (interestPartsOf mc mc.sum I).sum = I := by
  rw [interestPartsOf, sum_map_div_mul, div_self h, one_mul]

theorem prePrincipalParts_eq_map (mc : List ℚ) (I : ℚ) :
    prePrincipalParts mc I = mc.map fun c => c - c / mc.sum * I := by
  rw [prePrincipalParts, interestPartsOf, List.zipWith_map_right,
    List.zipWith_same]

theorem prePrincipalParts_length (mc : List ℚ) (I : ℚ) :
    (prePrincipalParts mc I).length = mc.length := by
  rw [prePrincipalParts_eq_map]; simp

theorem sum_zipWith_sub :
    ∀ {a b : List ℚ}, a.length = b.length →
      (List.zipWith (fun c i => c - i) a b).sum = a.sum - b.sum := by
  intro a
  induction a with
  | nil => intro b h; cases b <;> simp at h ⊢
  | cons x t ih =>
      intro b h
      cases b with
      | nil => simp at h
      | cons y u =>
          simp only [List.length_cons, Nat.succ.injEq] at h
          simp [List.zipWith, ih h]
          ring

theorem sum_zipWith_add :
    ∀ {a b : List ℚ}, a.length = b.length →
      (List.zipWith (fun e p => e + p) a b).sum = a.sum + b.sum := by
  intro a
  induction a with
  | nil => intro b h; cases b <;> simp at h ⊢
  | cons x t ih =>
      intro b h
      cases b with
      | nil => simp at h
      | cons y u =>
          simp only [List.length_cons, Nat.succ.injEq] at h
          simp [List.zipWith, ih h]
          ring

theorem prePrincipalParts_sum (mc : List ℚ) (I : ℚ) (h : mc.sum ≠ 0) :
    (prePrincipalParts mc I).sum = mc.sum - I := by
  rw [prePrincipalParts,
    sum_zipWith_sub (by simp [interestPartsOf]),
    interestPartsOf_sum mc I h]

theorem sum_map_mul_const (l : List ℚ) (k : ℚ) :
    (l.map fun p => p * k).sum = l.sum * k := by
  induction l with
  | nil => simp
  | cons a t ih => simp [ih, add_mul]

theorem postPrincipalParts_length (mc : List ℚ) (b I : ℚ) :
    (postPrincipalParts mc b I).length = mc.length := by
  rw [postPrincipalParts]
  split
  · simp [prePrincipalParts_length]
  · exact prePrincipalParts_length mc I

theorem postPrincipalParts_sum (mc : List ℚ) (b I : ℚ) (hb : 0 ≤ b) :
    (postPrincipalParts mc b I).sum = postPrincipalPaid mc b I := by
  rw [postPrincipalParts, postPrincipalPaid]
  split
  · next h =>
      have hs : (prePrincipalParts mc I).sum ≠ 0 := by
        intro h0; rw [h0] at h; exact absurd hb (not_le.mpr h)
      rw [sum_map_mul_const, mul_comm, div_mul_cancel₀ _ hs]
  · rfl

theorem sub_postPrincipalPaid_nonneg (mc : List ℚ) (b I : ℚ) :
    0 ≤ b - postPrincipalPaid mc b I := by
  rw [postPrincipalPaid]
  split
  · simp
  · next h => linarith [not_lt.mp h]

theorem postPrincipalPaid_nonneg (mc : List ℚ) (b I : ℚ)
    (hcov : ¬ mc.sum < I) (hS : mc.sum ≠ 0 ∨ mc = []) (hb : 0 ≤ b) :
    0 ≤ postPrincipalPaid mc b I := by
  rw [postPrincipalPaid]
  split
  · exact hb
  · rcases hS with hS | hS
    · rw [prePrincipalParts_sum mc I hS]; linarith [not_lt.mp hcov]
    · subst hS; simp [prePrincipalParts]

theorem prePrincipalParts_nonneg (mc : List ℚ) (I : ℚ)
    (hmc : ∀ c ∈ mc, 0 ≤ c) (hI : I ≤ mc.sum) :
    ∀ p ∈ prePrincipalParts mc I, 0 ≤ p := by
  intro p hp
  rw [prePrincipalParts_eq_map] at hp
  rcases List.mem_map.mp hp with ⟨c, hc, rfl⟩
  have hc0 : 0 ≤ c := hmc c hc
  rcases eq_or_lt_of_le (List.sum_nonneg hmc) with hS | hS
  · rw [← hS, div_zero, zero_mul, sub_zero]; exact hc0
  · have key : c / mc.sum * I ≤ c := by
      rw [div_mul_eq_mul_div, div_le_iff₀ hS]
      have : c * I ≤ c * mc.sum := mul_le_mul_of_nonneg_left hI hc0
      linarith
    linarith

theorem postPrincipalParts_nonneg (mc : List ℚ) (b I : ℚ)
    (hmc : ∀ c ∈ mc, 0 ≤ c) (hI : I ≤ mc.sum) (hb : 0 ≤ b) :
    ∀ p ∈ postPrincipalParts mc b I, 0 ≤ p := by
  intro p hp
  rw [postPrincipalParts] at hp
  split at hp
  · next h =>
      rcases List.mem_map.mp hp with ⟨q, hq, rfl⟩
      have hq0 := prePrincipalParts_nonneg mc I hmc hI q hq
      have hsum : (0:ℚ) ≤ (prePrincipalParts mc I).sum :=
        le_of_lt (lt_of_le_of_lt hb h)
      exact mul_nonneg hq0 (div_nonneg hb hsum)
  · exact prePrincipalParts_nonneg mc I hmc hI p hp

/-! Facts about round-half-to-even. -/

theorem roundHalfEven_ge_floor (q : ℚ) : ⌊q⌋ ≤ roundHalfEven q := by
  rw [roundHalfEven]
  split_ifs <;> omega

theorem roundHalfEven_le_floor_add_one (q : ℚ) : roundHalfEven q ≤ ⌊q⌋ + 1 := by
  rw [roundHalfEven]
  split_ifs <;> omega

theorem abs_roundHalfEven_sub_le (q : ℚ) : |(roundHalfEven q : ℚ) - q| ≤ 1 / 2 := by
  have h1 : (⌊q⌋ : ℚ) ≤ q := Int.floor_le q
  have h2 : q < ⌊q⌋ + 1 := Int.lt_floor_add_one q
  rw [roundHalfEven]
  split_ifs with ha hb hc <;>
    (rw [abs_le]; constructor <;> push_cast <;>
      first
        | linarith
        | (rw [not_lt] at *; linarith))

theorem roundHalfEven_nonneg (q : ℚ) (h : 0 ≤ q) : 0 ≤ roundHalfEven q := by
  have : (0:ℤ) ≤ ⌊q⌋ := Int.floor_nonneg.mpr h
  have := roundHalfEven_ge_floor q
  omega

theorem roundHalfEven_mono {x y : ℚ} (h : x ≤ y) :
    roundHalfEven x ≤ roundHalfEven y := by
  rcases lt_or_eq_of_le (Int.floor_le_floor h) with hf | hf
  · have h1 := roundHalfEven_le_floor_add_one x
    have h2 := roundHalfEven_ge_floor y
    omega
  · have hx1 : (⌊x⌋ : ℚ) ≤ x := Int.floor_le x
    have hy2 : y < ⌊y⌋ + 1 := Int.lt_floor_add_one y
    rw [roundHalfEven, roundHalfEven, hf]
    split_ifs <;>
      first
        | omega
        | (exfalso; rw [hf] at *; rw [not_lt] at *; omega)
        | (exfalso; rw [hf] at *; rw [not_lt] at *; linarith)

theorem roundTo_mono (d : ℕ) {x y : ℚ} (h : x ≤ y) : roundTo d x ≤ roundTo d y := by
  have hp : (0:ℚ) < 10 ^ d := by positivity
  have hm : x * 10 ^ d ≤ y * 10 ^ d := mul_le_mul_of_nonneg_right h (le_of_lt hp)
  have := roundHalfEven_mono hm
  rw [roundTo, roundTo]
  exact div_le_div_of_nonneg_right (by exact_mod_cast this) (le_of_lt hp)

theorem roundTo_nonneg (d : ℕ) {q : ℚ} (h : 0 ≤ q) : 0 ≤ roundTo d q := by
  have hp : (0:ℚ) < 10 ^ d := by positivity
  have h0 : 0 ≤ roundHalfEven (q * 10 ^ d) :=
    roundHalfEven_nonneg _ (mul_nonneg h (le_of_lt hp))
  exact div_nonneg (by exact_mod_cast h0) (le_of_lt hp)

theorem abs_roundTo_sub_le (d : ℕ) (q : ℚ) :
    |roundTo d q - q| ≤ 1 / (2 * 10 ^ d) := by
  have hp : (0:ℚ) < 10 ^ d := by positivity
  have key : roundTo d q - q = ((roundHalfEven (q * 10 ^ d) : ℚ) - q * 10 ^ d) / 10 ^ d := by
    rw [roundTo]
    field_simp
    ring
  rw [key, abs_div, abs_of_pos hp]
  calc |(roundHalfEven (q * 10 ^ d) : ℚ) - q * 10 ^ d| / 10 ^ d
      ≤ (1 / 2) / 10 ^ d := by
        exact div_le_div_of_nonneg_right (abs_roundHalfEven_sub_le _) (le_of_lt hp)
    _ = 1 / (2 * 10 ^ d) := by rw [div_div]

theorem abs_sum_map_roundTo_sub (d : ℕ) (l : List ℚ) :
    |(l.map (roundTo d)).sum - l.sum| ≤ l.length * (1 / (2 * 10 ^ d)) := by
  induction l with
  | nil => simp
  | cons a t ih =>
      have h1 := abs_roundTo_sub_le d a
      have tri := abs_add (roundTo d a - a) ((t.map (roundTo d)).sum - t.sum)
      simp only [List.map_cons, List.sum_cons, List.length_cons]
      have e : roundTo d a + (t.map (roundTo d)).sum - (a + t.sum)
          = (roundTo d a - a) + ((t.map (roundTo d)).sum - t.sum) := by ring
      rw [e]
      push_cast
      calc |(roundTo d a - a) + ((t.map (roundTo d)).sum - t.sum)|
          ≤ |roundTo d a - a| + |(t.map (roundTo d)).sum - t.sum| := tri
        _ ≤ 1 / (2 * 10 ^ d) + t.length * (1 / (2 * 10 ^ d)) := by
            exact add_le_add h1 ih
        _ = (t.length + 1) * (1 / (2 * 10 ^ d)) := by ring

theorem roundTo_eq_zero_of_small (d : ℕ) {q : ℚ}
    (h0 : 0 ≤ q) (h1 : q ≤ EPS) (hd : d ≤ 5) : roundTo d q = 0 := by
  have hp : (0:ℚ) < 10 ^ d := by positivity
  have hx0 : 0 ≤ q * 10 ^ d := mul_nonneg h0 (le_of_lt hp)
  have hpow : (10:ℚ) ^ d ≤ 10 ^ 5 := by
    exact pow_le_pow_right₀ (by norm_num) hd
  have hx1 : q * 10 ^ d < 1 / 2 := by
    have : q * 10 ^ d ≤ EPS * 10 ^ 5 := by
      apply mul_le_mul h1 hpow (le_of_lt hp) (by rw [EPS]; norm_num)
    rw [EPS] at this
    norm_num at this
    linarith
  have hfloor : ⌊q * 10 ^ d⌋ = 0 := by
    apply Int.floor_eq_zero_iff.mpr
    constructor
    · exact hx0
    · linarith
  have : roundHalfEven (q * 10 ^ d) = 0 := by
    rw [roundHalfEven, hfloor]
    rw [if_pos]
    push_cast
    linarith
  rw [roundTo, this]
  simp

/-! The loop invariant and its preservation. -/

theorem stepBody_balance (mc : List ℚ) (mRate : ℚ) (s : LoopState) :
    (stepBody mc mRate s).balance
      = s.balance - postPrincipalPaid mc s.balance (s.balance * mRate) := rfl

theorem stepBody_cumEquity (mc : List ℚ) (mRate : ℚ) (s : LoopState) :
    (stepBody mc mRate s).cumEquity
      = List.zipWith (fun e p => e + p) s.cumEquity
          (postPrincipalParts mc s.balance (s.balance * mRate)) := rfl

theorem stepBody_pmtNo (mc : List ℚ) (mRate : ℚ) (s : LoopState) :
    (stepBody mc mRate s).pmtNo = s.pmtNo + 1 := rfl

theorem stepBody_rows (mc : List ℚ) (mRate : ℚ) (s : LoopState) :
    (stepBody mc mRate s).rows
      = s.rows ++
        [{ pmtNo := s.pmtNo + 1
           principalPaid := postPrincipalPaid mc s.balance (s.balance * mRate)
           interestPaid := s.balance * mRate
           loanBalance := (stepBody mc mRate s).balance
           cumEquity := (stepBody mc mRate s).cumEquity }] := rfl

theorem step_ok_iff {mc : List ℚ} {mRate : ℚ} {s s₁ : LoopState} :
    step mc mRate s = .ok s₁ ↔
      ¬ mc.sum < s.balance * mRate ∧ ¬ (mc.sum = 0 ∧ mc ≠ [])
        ∧ s₁ = stepBody mc mRate s := by
  rw [step]
  split_ifs with h1 h2
  · simp [h1]
  · simp [h1, h2]
  · simp only [Except.ok.injEq, h1, h2, not_false_iff, true_and]
    exact eq_comm

theorem step_err_insufficient_iff {mc : List ℚ} {mRate : ℚ} {s : LoopState} :
    step mc mRate s = .error .insufficientPayment ↔ mc.sum < s.balance * mRate := by
  rw [step]
  split_ifs with h1 h2
  · simp [h1]
  · exact iff_of_false (by simp) h1
  · exact iff_of_false (by simp) h1

/-- The structural loop invariant (holds with no hypotheses on the input
vectors): length bookkeeping, payment numbering `1, 2, …`, the link
between the live state and the last appended row, exact conservation of
equity, and the balance facts (non-increasing, above `EPS` strictly before
the last row, never negative). -/
structure LoopInv (loan : ℚ) (dp mc : List ℚ) (s : LoopState) : Prop where
  lenEq : s.cumEquity.length = mc.length
  rowLen : ∀ r ∈ s.rows, r.cumEquity.length = mc.length
  pmtEq : s.rows.length = s.pmtNo
  pmtNos : s.rows.map SRow.pmtNo = List.range' 1 s.pmtNo
  link : (s.rows = [] ∧ s.balance = loan ∧ s.cumEquity = dp) ∨
      (∃ r, s.rows.getLast? = some r ∧ r.loanBalance = s.balance
        ∧ r.cumEquity = s.cumEquity)
  eqSum : s.cumEquity.sum = dp.sum + (s.rows.map SRow.principalPaid).sum
  rowSum : ∀ k (h : k < s.rows.length),
      (s.rows.get ⟨k, h⟩).cumEquity.sum
        = dp.sum + ((s.rows.take (k + 1)).map SRow.principalPaid).sum
  balChain : List.Chain' (fun a b => b.loanBalance ≤ a.loanBalance) s.rows
  balPos : ∀ k (h : k + 1 < s.rows.length),
      EPS < (s.rows.get ⟨k, Nat.lt_of_succ_lt h⟩).loanBalance
  balNonneg : ∀ r ∈ s.rows, 0 ≤ r.loanBalance

theorem LoopInv_init (loan : ℚ) (dp mc : List ℚ) (hlen : dp.length = mc.length) :
    LoopInv loan dp mc (initState loan dp) := by
  refine { lenEq := hlen, rowLen := ?_, pmtEq := rfl, pmtNos := ?_,
           link := Or.inl ⟨rfl, rfl, rfl⟩, eqSum := ?_, rowSum := ?_,
           balChain := ?_, balPos := ?_, balNonneg := ?_ } <;>
    simp [initState]

theorem LoopInv_step {loan : ℚ} {dp mc : List ℚ} {mRate : ℚ} {s s₁ : LoopState}
    (hInv : LoopInv loan dp mc s) (hb : EPS < s.balance)
    (hok : step mc mRate s = .ok s₁) : LoopInv loan dp mc s₁ := by
  obtain ⟨hcov, hzero, rfl⟩ := step_ok_iff.mp hok
  have hbpos : (0:ℚ) < s.balance := lt_trans (by rw [EPS]; norm_num) hb
  have hS : mc.sum ≠ 0 ∨ mc = [] := by
    by_cases hmc : mc = []
    · exact Or.inr hmc
    · exact Or.inl (fun h0 => hzero ⟨h0, hmc⟩)
  have hlenpP : (postPrincipalParts mc s.balance (s.balance * mRate)).length
      = mc.length := postPrincipalParts_length mc _ _
  have hsumpP : (postPrincipalParts mc s.balance (s.balance * mRate)).sum
      = postPrincipalPaid mc s.balance (s.balance * mRate) :=
    postPrincipalParts_sum mc _ _ (le_of_lt hbpos)
  have hpaid0 : 0 ≤ postPrincipalPaid mc s.balance (s.balance * mRate) :=
    postPrincipalPaid_nonneg mc _ _ hcov hS (le_of_lt hbpos)
  have hnew0 : 0 ≤ s.balance - postPrincipalPaid mc s.balance (s.balance * mRate) :=
    sub_postPrincipalPaid_nonneg mc _ _
  have hcumlen : (stepBody mc mRate s).cumEquity.length = mc.length := by
    rw [stepBody_cumEquity, List.length_zipWith, hInv.lenEq, hlenpP, Nat.min_self]
  have hcumsum : (stepBody mc mRate s).cumEquity.sum
      = s.cumEquity.sum + postPrincipalPaid mc s.balance (s.balance * mRate) := by
    rw [stepBody_cumEquity, sum_zipWith_add (by rw [hInv.lenEq, hlenpP]), hsumpP]
  refine { lenEq := hcumlen, rowLen := ?_, pmtEq := ?_, pmtNos := ?_,
           link := ?_, eqSum := ?_, rowSum := ?_, balChain := ?_,
           balPos := ?_, balNonneg := ?_ }
  · intro r hr
    rw [stepBody_rows] at hr
    rcases List.mem_append.mp hr with h | h
    · exact hInv.rowLen r h
    · simp only [List.mem_singleton] at h
      subst h
      exact hcumlen
  · rw [stepBody_rows, stepBody_pmtNo, List.length_append, hInv.pmtEq]
    rfl
  · rw [stepBody_rows, List.map_append, hInv.pmtNos, stepBody_pmtNo]
    rw [List.range'_concat]
    simp
    omega
  · right
    rw [stepBody_rows, List.getLast?_concat]
    exact ⟨_, rfl, rfl, rfl⟩
  · rw [hcumsum, hInv.eqSum, stepBody_rows, List.map_append, List.sum_append]
    simp
    ring
  · intro k h
    have hlen : (stepBody mc mRate s).rows.length = s.rows.length + 1 := by
      rw [stepBody_rows]
      simp
    rcases Nat.lt_or_ge k s.rows.length with hk | hk
    · have e1 : (stepBody mc mRate s).rows.get ⟨k, h⟩ = s.rows.get ⟨k, hk⟩ := by
        simp only [List.get_eq_getElem]
        exact List.getElem_append_left hk
      have e2 : (stepBody mc mRate s).rows.take (k + 1) = s.rows.take (k + 1) := by
        rw [stepBody_rows]
        exact List.take_append_of_le_length (by omega)
      rw [e1, e2]
      exact hInv.rowSum k hk
    · have hk2 : k = s.rows.length := by
        have h2 := h
        rw [hlen] at h2
        omega
      subst hk2
      have e1 : ((stepBody mc mRate s).rows.get ⟨s.rows.length, h⟩).cumEquity
          = (stepBody mc mRate s).cumEquity := by
        simp only [List.get_eq_getElem]
        exact congrArg SRow.cumEquity
          (List.getElem_concat_length s.rows _ _ rfl _)
      have e2 : (stepBody mc mRate s).rows.take (s.rows.length + 1)
          = (stepBody mc mRate s).rows := by
        apply List.take_of_length_le
        rw [hlen]
      rw [e1, e2, hcumsum, hInv.eqSum, stepBody_rows, List.map_append,
        List.sum_append]
      simp
      ring
  · rw [stepBody_rows]
    refine List.Chain'.append hInv.balChain (List.chain'_singleton _) ?_
    intro x hx y hy
    simp only [List.head?_cons, Option.mem_def, Option.some.injEq] at hy
    subst hy
    rcases hInv.link with ⟨hnil, _, _⟩ | ⟨r, hr, hbal, _⟩
    · rw [hnil] at hx
      simp at hx
    · rw [hr] at hx
      simp only [Option.mem_def, Option.some.injEq] at hx
      obtain rfl := hx
      show (stepBody mc mRate s).balance ≤ r.loanBalance
      rw [hbal, stepBody_balance]
      linarith
  · intro k h
    have hlen : (stepBody mc mRate s).rows.length = s.rows.length + 1 := by
      rw [stepBody_rows]
      simp
    have h2 := h
    rw [hlen] at h2
    have hk : k < s.rows.length := by omega
    have e1 : (stepBody mc mRate s).rows.get ⟨k, Nat.lt_of_succ_lt h⟩
        = s.rows.get ⟨k, hk⟩ := by
      simp only [List.get_eq_getElem]
      exact List.getElem_append_left hk
    rw [e1]
    rcases Nat.lt_or_ge (k + 1) s.rows.length with hk1 | hk1
    · exact hInv.balPos k hk1
    · have hk2 : k + 1 = s.rows.length := by omega
      rcases hInv.link with ⟨hnil, _, _⟩ | ⟨r, hr, hbal, _⟩
      · rw [hnil] at hk
        simp at hk
      · have hlast : s.rows.getLast? = some (s.rows.get ⟨k, hk⟩) := by
          rw [List.getLast?_eq_getElem?]
          simp only [List.get_eq_getElem]
          have : s.rows.length - 1 = k := by omega
          rw [this]
          exact List.getElem?_eq_getElem hk
        rw [hlast] at hr
        have hxr : r = s.rows.get ⟨k, hk⟩ := by
          injection hr.symm
        rw [hxr] at hbal
        rw [hbal]
        exact hb
  · intro r hr
    rw [stepBody_rows] at hr
    rcases List.mem_append.mp hr with h | h
    · exact hInv.balNonneg r h
    · simp only [List.mem_singleton] at h
      subst h
      exact hnew0

/-! Unfolding equations for `runLoop` and inversion of a successful run. -/

theorem runLoop_zero_of_gt {mc : List ℚ} {mRate : ℚ} {s : LoopState}
    (h : EPS < s.balance) : runLoop mc mRate 0 s = .outOfFuel s := by
  rw [runLoop, if_pos h]

theorem runLoop_of_le {mc : List ℚ} {mRate : ℚ} {fuel : ℕ} {s : LoopState}
    (h : ¬ EPS < s.balance) : runLoop mc mRate fuel s = .done s := by
  cases fuel <;> rw [runLoop, if_neg h]

theorem runLoop_succ_ok {mc : List ℚ} {mRate : ℚ} {fuel : ℕ} {s s₁ : LoopState}
    (h : EPS < s.balance) (hstep : step mc mRate s = .ok s₁) :
    runLoop mc mRate (fuel + 1) s = runLoop mc mRate fuel s₁ := by
  rw [runLoop, if_pos h, hstep]

theorem runLoop_succ_err {mc : List ℚ} {mRate : ℚ} {fuel : ℕ} {s : LoopState}
    {e : AmortError} (h : EPS < s.balance) (hstep : step mc mRate s = .error e) :
    runLoop mc mRate (fuel + 1) s = .err e := by
  rw [runLoop, if_pos h, hstep]

theorem runLoop_done_inv {loan : ℚ} {dp mc : List ℚ} {mRate : ℚ} :
    ∀ {fuel : ℕ} {s s₁ : LoopState},
      runLoop mc mRate fuel s = .done s₁ → LoopInv loan dp mc s →
      LoopInv loan dp mc s₁ ∧ s₁.balance ≤ EPS := by
  intro fuel
  induction fuel with
  | zero =>
      intro s s₁ h hInv
      by_cases hb : EPS < s.balance
      · rw [runLoop_zero_of_gt hb] at h
        exact absurd h (by simp)
      · rw [runLoop_of_le hb] at h
        injection h with h2
        subst h2
        exact ⟨hInv, not_lt.mp hb⟩
  | succ n ih =>
      intro s s₁ h hInv
      by_cases hb : EPS < s.balance
      · cases hstep : step mc mRate s with
        | error e =>
            rw [runLoop_succ_err hb hstep] at h
            exact absurd h (by simp)
        | ok s₂ =>
            rw [runLoop_succ_ok hb hstep] at h
            exact ih h (LoopInv_step hInv hb hstep)
      · rw [runLoop_of_le hb] at h
        injection h with h2
        subst h2
        exact ⟨hInv, not_lt.mp hb⟩

theorem runLoop_done_rows {mc : List ℚ} {mRate : ℚ} :
    ∀ {fuel : ℕ} {s s₁ : LoopState},
      runLoop mc mRate fuel s = .done s₁ →
      s.rows.length ≤ s₁.rows.length
        ∧ (EPS < s.balance → s.rows.length < s₁.rows.length) := by
  intro fuel
  induction fuel with
  | zero =>
      intro s s₁ h
      by_cases hb : EPS < s.balance
      · rw [runLoop_zero_of_gt hb] at h
        exact absurd h (by simp)
      · rw [runLoop_of_le hb] at h
        injection h with h2
        subst h2
        exact ⟨le_refl _, fun hb2 => absurd hb2 hb⟩
  | succ n ih =>
      intro s s₁ h
      by_cases hb : EPS < s.balance
      · cases hstep : step mc mRate s with
        | error e =>
            rw [runLoop_succ_err hb hstep] at h
            exact absurd h (by simp)
        | ok s₂ =>
            rw [runLoop_succ_ok hb hstep] at h
            obtain ⟨-, -, rfl⟩ := step_ok_iff.mp hstep
            have hgrow : (stepBody mc mRate s).rows.length = s.rows.length + 1 := by
              rw [stepBody_rows]
              simp
            have h2 := (ih h).1
            rw [hgrow] at h2
            exact ⟨by omega, fun _ => by omega⟩
      · rw [runLoop_of_le hb] at h
        injection h with h2
        subst h2
        exact ⟨le_refl _, fun hb2 => absurd hb2 hb⟩

theorem amort_ok_elim {loan rate : ℚ} {T : ℕ} {mc dp : List ℚ} {d fuel : ℕ}
    {sched : List SRow} {yearly : List YRow}
    (h : amortization_shared loan rate T mc dp d fuel = .ok sched yearly) :
    dp.length = mc.length ∧
      ∃ s₁, runLoop mc (rate / 12) fuel (initState loan dp) = .done s₁ ∧
        sched = s₁.rows.map (roundRow d) ∧ yearly = yearlyRollup sched := by
  simp only [amortization_shared] at h
  split_ifs at h with h1 h2
  cases hr : runLoop mc (rate / 12) fuel (initState loan dp) with
  | done s₁ =>
      rw [hr] at h
      injection h with hs hy
      refine ⟨not_ne_iff.mp h1, s₁, rfl, hs.symm, ?_⟩
      rw [← hs]
      exact hy.symm
  | err e =>
      rw [hr] at h
      exact absurd h (by simp)
  | outOfFuel s₂ =>
      rw [hr] at h
      exact absurd h (by simp)

/-! The per-borrower equity invariant (needs non-negative inputs). -/

theorem forall₂_le_zipWith_add :
    ∀ {a b : List ℚ}, a.length = b.length → (∀ p ∈ b, 0 ≤ p) →
      List.Forall₂ (· ≤ ·) a (List.zipWith (fun e p => e + p) a b) := by
  intro a
  induction a with
  | nil => intro b _ _; simp
  | cons x t ih =>
      intro b hlen hb
      cases b with
      | nil => simp at hlen
      | cons y u =>
          simp only [List.length_cons, Nat.succ.injEq] at hlen
          simp only [List.zipWith_cons_cons]
          refine List.Forall₂.cons ?_ (ih hlen fun p hp => hb p (List.mem_cons_of_mem _ hp))
          have := hb y (List.mem_cons_self _ _)
          linarith

theorem zipWith_add_nonneg :
    ∀ {a b : List ℚ}, (∀ x ∈ a, 0 ≤ x) → (∀ p ∈ b, 0 ≤ p) →
      ∀ x ∈ List.zipWith (fun e p => e + p) a b, 0 ≤ x := by
  intro a
  induction a with
  | nil => intro b _ _; simp
  | cons x t ih =>
      intro b ha hb
      cases b with
      | nil => simp
      | cons y u =>
          intro z hz
          simp only [List.zipWith_cons_cons, List.mem_cons] at hz
          rcases hz with rfl | hz
          · have h1 := ha x (List.mem_cons_self _ _)
            have h2 := hb y (List.mem_cons_self _ _)
            linarith
          · exact ih (fun w hw => ha w (List.mem_cons_of_mem _ hw))
              (fun w hw => hb w (List.mem_cons_of_mem _ hw)) z hz

/-- The equity-monotonicity invariant: every borrower's cumulative-equity
column starts at or above that borrower's down payment and never
decreases from one row to the next; all equity entries stay
non-negative. -/
structure EquityInv (dp : List ℚ) (s : LoopState) : Prop where
  head : ∀ r₀ ∈ s.rows.head?, List.Forall₂ (· ≤ ·) dp r₀.cumEquity
  chain : List.Chain'
      (fun a b => List.Forall₂ (· ≤ ·) a.cumEquity b.cumEquity) s.rows
  nonnegCur : ∀ x ∈ s.cumEquity, 0 ≤ x
  nonnegRows : ∀ r ∈ s.rows, ∀ x ∈ r.cumEquity, 0 ≤ x

theorem EquityInv_init (loan : ℚ) (dp : List ℚ) (hdp : ∀ x ∈ dp, 0 ≤ x) :
    EquityInv dp (initState loan dp) := by
  refine { head := ?_, chain := ?_, nonnegCur := hdp, nonnegRows := ?_ } <;>
    simp [initState]

theorem EquityInv_step {loan : ℚ} {dp mc : List ℚ} {mRate : ℚ} {s s₁ : LoopState}
    (hLI : LoopInv loan dp mc s) (hE : EquityInv dp s)
    (hmc : ∀ c ∈ mc, 0 ≤ c) (hb : EPS < s.balance)
    (hok : step mc mRate s = .ok s₁) : EquityInv dp s₁ := by
  obtain ⟨hcov, hzero, rfl⟩ := step_ok_iff.mp hok
  have hbpos : (0:ℚ) < s.balance := lt_trans (by rw [EPS]; norm_num) hb
  have hpartsN : ∀ p ∈ postPrincipalParts mc s.balance (s.balance * mRate), 0 ≤ p :=
    postPrincipalParts_nonneg mc _ _ hmc (not_lt.mp hcov) (le_of_lt hbpos)
  have hlen2 : s.cumEquity.length
      = (postPrincipalParts mc s.balance (s.balance * mRate)).length := by
    rw [hLI.lenEq, postPrincipalParts_length]
  have hstepF : List.Forall₂ (· ≤ ·) s.cumEquity (stepBody mc mRate s).cumEquity := by
    rw [stepBody_cumEquity]
    exact forall₂_le_zipWith_add hlen2 hpartsN
  have hcumN : ∀ x ∈ (stepBody mc mRate s).cumEquity, 0 ≤ x := by
    rw [stepBody_cumEquity]
    exact zipWith_add_nonneg hE.nonnegCur hpartsN
  refine { head := ?_, chain := ?_, nonnegCur := hcumN, nonnegRows := ?_ }
  · intro r₀ hr₀
    rw [stepBody_rows] at hr₀
    cases hrows : s.rows with
    | nil =>
        rw [hrows] at hr₀
        simp only [List.nil_append, List.head?_cons, Option.mem_def,
          Option.some.injEq] at hr₀
        subst hr₀
        rcases hLI.link with ⟨-, -, hdp⟩ | ⟨r, hr, -, -⟩
        · show List.Forall₂ (· ≤ ·) dp (stepBody mc mRate s).cumEquity
          rw [← hdp]
          exact hstepF
        · rw [hrows] at hr
          simp at hr
    | cons x t =>
        rw [hrows] at hr₀
        simp only [List.cons_append, List.head?_cons, Option.mem_def,
          Option.some.injEq] at hr₀
        subst hr₀
        have := hE.head
        rw [hrows] at this
        exact this _ rfl
  · rw [stepBody_rows]
    refine List.Chain'.append hE.chain (List.chain'_singleton _) ?_
    intro x hx y hy
    simp only [List.head?_cons, Option.mem_def, Option.some.injEq] at hy
    subst hy
    rcases hLI.link with ⟨hnil, -, -⟩ | ⟨r, hr, -, hcum⟩
    · rw [hnil] at hx
      simp at hx
    · rw [hr] at hx
      simp only [Option.mem_def, Option.some.injEq] at hx
      obtain rfl := hx
      show List.Forall₂ (· ≤ ·) r.cumEquity (stepBody mc mRate s).cumEquity
      rw [hcum]
      exact hstepF
  · intro r hr
    rw [stepBody_rows] at hr
    rcases List.mem_append.mp hr with h | h
    · exact hE.nonnegRows r h
    · simp only [List.mem_singleton] at h
      subst h
      exact hcumN

theorem runLoop_done_equity {loan : ℚ} {dp mc : List ℚ} {mRate : ℚ}
    (hmc : ∀ c ∈ mc, 0 ≤ c) :
    ∀ {fuel : ℕ} {s s₁ : LoopState},
      runLoop mc mRate fuel s = .done s₁ → LoopInv loan dp mc s →
      EquityInv dp s → EquityInv dp s₁ := by
  intro fuel
  induction fuel with
  | zero =>
      intro s s₁ h hLI hE
      by_cases hb : EPS < s.balance
      · rw [runLoop_zero_of_gt hb] at h
        exact absurd h (by simp)
      · rw [runLoop_of_le hb] at h
        injection h with h2
        subst h2
        exact hE
  | succ n ih =>
      intro s s₁ h hLI hE
      by_cases hb : EPS < s.balance
      · cases hstep : step mc mRate s with
        | error e =>
            rw [runLoop_succ_err hb hstep] at h
            exact absurd h (by simp)
        | ok s₂ =>
            rw [runLoop_succ_ok hb hstep] at h
            exact ih h (LoopInv_step hLI hb hstep) (EquityInv_step hLI hE hmc hb hstep)
      · rw [runLoop_of_le hb] at h
        injection h with h2
        subst h2
        exact hE

/-! The yearly roll-up: year keys, bucket structure, row count. -/

theorem yearOf_mono {p q : ℕ} (h : p ≤ q) : yearOf p ≤ yearOf q := by
  rw [yearOf, yearOf]
  omega

theorem mem_map_yearOf_range' {K a : ℕ} :
    a ∈ (List.range' 1 K).map yearOf ↔ 1 ≤ a ∧ a < 1 + (K + 11) / 12 := by
  constructor
  · intro h
    obtain ⟨p, hp, rfl⟩ := List.mem_map.mp h
    rw [List.mem_range'_1] at hp
    rw [yearOf]
    omega
  · rintro ⟨h1, h2⟩
    refine List.mem_map.mpr ⟨12 * (a - 1) + 1, ?_, ?_⟩
    · rw [List.mem_range'_1]
      omega
    · rw [yearOf]
      omega

theorem dedup_map_yearOf (K : ℕ) :
    ((List.range' 1 K).map yearOf).dedup = List.range' 1 ((K + 11) / 12) := by
  have hlt : List.Pairwise (· < ·) (List.range' 1 K) := List.pairwise_lt_range' 1 K
  have hsort1 : List.Pairwise (· ≤ ·) (((List.range' 1 K).map yearOf).dedup) := by
    refine List.Pairwise.sublist (List.dedup_sublist _) ?_
    exact hlt.map yearOf fun a b hab => yearOf_mono (le_of_lt hab)
  have hsort2 : List.Pairwise (· ≤ ·) (List.range' 1 ((K + 11) / 12)) :=
    (List.pairwise_lt_range' 1 _).imp le_of_lt
  have hperm : List.Perm (((List.range' 1 K).map yearOf).dedup)
      (List.range' 1 ((K + 11) / 12)) := by
    refine (List.perm_ext_iff_of_nodup (List.nodup_dedup _) (List.nodup_range' 1 _)).mpr ?_
    intro a
    rw [List.mem_dedup, mem_map_yearOf_range', List.mem_range'_1]
  exact List.eq_of_perm_of_sorted hperm hsort1 hsort2

theorem filterMap_map_of_all_some {α β : Type} (f : α → Option β) (g : β → α) :
    ∀ l : List α, (∀ a ∈ l, ∃ b, f a = some b ∧ g b = a) →
      (l.filterMap f).map g = l := by
  intro l
  induction l with
  | nil => intro _; simp
  | cons a t ih =>
      intro h
      obtain ⟨b, hb, hgb⟩ := h a (List.mem_cons_self _ _)
      rw [List.filterMap_cons_some hb, List.map_cons, hgb,
        ih fun a2 ha2 => h a2 (List.mem_cons_of_mem _ ha2)]

theorem yearlyRollup_spec {sched : List SRow}
    (hp : sched.map SRow.pmtNo = List.range' 1 sched.length) :
    (yearlyRollup sched).map YRow.year = List.range' 1 ((sched.length + 11) / 12)
    ∧ (yearlyRollup sched).length = (sched.length + 11) / 12
    ∧ ∀ yr ∈ yearlyRollup sched,
        ∃ r, (sched.filter fun rr => yearOf rr.pmtNo = yr.year).getLast? = some r
          ∧ yr.loanBalance = r.loanBalance ∧ yr.cumEquity = r.cumEquity
          ∧ yr.totalEquity = r.cumEquity.sum
          ∧ yr.share = r.cumEquity.map fun e => e / r.cumEquity.sum := by
  have hyears : (sched.map fun r => yearOf r.pmtNo)
      = (List.range' 1 sched.length).map yearOf := by
    rw [← hp, List.map_map]
    rfl
  have hsome : ∀ y ∈ (sched.map fun r => yearOf r.pmtNo).dedup,
      ∃ r, (sched.filter fun rr => yearOf rr.pmtNo = y).getLast? = some r := by
    intro y hy
    rw [List.mem_dedup] at hy
    obtain ⟨r, hr, hry⟩ := List.mem_map.mp hy
    have hmem : r ∈ sched.filter fun rr => yearOf rr.pmtNo = y :=
      List.mem_filter.mpr ⟨hr, by simp [hry]⟩
    have hne := List.ne_nil_of_mem hmem
    obtain ⟨x, hx⟩ := Option.isSome_iff_exists.mp (List.getLast?_isSome.mpr hne)
    exact ⟨x, hx⟩
  have hmap : (yearlyRollup sched).map YRow.year
      = (sched.map fun r => yearOf r.pmtNo).dedup := by
    rw [yearlyRollup]
    refine filterMap_map_of_all_some _ _ _ ?_
    intro y hy
    obtain ⟨r, hr⟩ := hsome y hy
    exact ⟨_, by rw [hr]; rfl, rfl⟩
  refine ⟨by rw [hmap, hyears, dedup_map_yearOf], ?_, ?_⟩
  · have := congrArg List.length hmap
    rw [List.length_map] at this
    rw [this, hyears, dedup_map_yearOf, List.length_range']
  · intro yr hyr
    rw [yearlyRollup] at hyr
    obtain ⟨y, _, hy2⟩ := List.mem_filterMap.mp hyr
    obtain ⟨r, hr1, hr2⟩ := Option.map_eq_some'.mp hy2
    refine ⟨r, ?_, ?_, ?_, ?_, ?_⟩ <;> rw [← hr2]
    exact hr1
    all_goals rfl

/-! Concrete evaluations of the engine, used by the witnesses below. -/

theorem amort_eval2 :
    amortization_shared (3/10) (3/25) 1 [1/5] [0] 2 10 = .ok schedEx yearlyEx := by
  norm_num [amortization_shared, runLoop, step, stepBody, postPrincipalPaid,
    postPrincipalParts, prePrincipalParts, interestPartsOf, initState, EPS,
    roundRow, roundTo, roundHalfEven, yearlyRollup, yearOf, Int.floor_eq_iff,
    List.dedup_cons_of_mem, List.dedup_cons_of_not_mem, List.filter_cons,
    List.filterMap_cons, List.getLast?, schedEx, yearlyEx]

theorem amort_eval0 :
    amortization_shared (3/10) (3/25) 1 [1/5] [0] 0 10 = .ok schedEx0 yearlyEx0 := by
  norm_num [amortization_shared, runLoop, step, stepBody, postPrincipalPaid,
    postPrincipalParts, prePrincipalParts, interestPartsOf, initState, EPS,
    roundRow, roundTo, roundHalfEven, yearlyRollup, yearOf, Int.floor_eq_iff,
    List.dedup_cons_of_mem, List.dedup_cons_of_not_mem, List.filter_cons,
    List.filterMap_cons, List.getLast?, schedEx0, yearlyEx0]

theorem amort_eval7 :
    amortization_shared (1/500000) (9/25) 1 [3/2000000] [0] 7 10
      = .ok schedEx7 yearlyEx7 := by
  norm_num [amortization_shared, runLoop, step, stepBody, postPrincipalPaid,
    postPrincipalParts, prePrincipalParts, interestPartsOf, initState, EPS,
    roundRow, roundTo, roundHalfEven, yearlyRollup, yearOf, Int.floor_eq_iff,
    List.dedup_cons_of_mem, List.dedup_cons_of_not_mem, List.filter_cons,
    List.filterMap_cons, List.getLast?, schedEx7, yearlyEx7]

/-- C4: Interest proration fidelity.  In every period that passes the
guards (i.e. whenever `step` succeeds), the proration list is literally
`[c / contrib_sum * interest_due for c in monthly_contrib]` with
`interest_due = balance * m_rate`, and its sum is exactly `interest_due`
(before any rounding): the proration partitions the period's interest with
no leakage.  (`mc ≠ []` is the spec's `N ≥ 1` precondition; with it, a
successful step guarantees `contrib_sum ≠ 0`.) -/
theorem C4_interest_proration {mc : List ℚ} {mRate : ℚ} {s s₁ : LoopState}
    (hmc : mc ≠ []) (hok : step mc mRate s = .ok s₁) :
    interestPartsOf mc mc.sum (s.balance * mRate)
        = mc.map (fun c => c / mc.sum * (s.balance * mRate))
      ∧ (interestPartsOf mc mc.sum (s.balance * mRate)).sum = s.balance * mRate := by
  obtain ⟨hcov, hzero, -⟩ := step_ok_iff.mp hok
  have hS : mc.sum ≠ 0 := fun h0 => hzero ⟨h0, hmc⟩
  exact ⟨rfl, interestPartsOf_sum mc _ hS⟩

theorem C4_interest_proration_witness :
    interestPartsOf [(1:ℚ)/5] ([(1:ℚ)/5] : List ℚ).sum
        ((initState (3/10) [0]).balance * (1/100))
      = [(1:ℚ)/5].map (fun c => c / ([(1:ℚ)/5] : List ℚ).sum
          * ((initState (3/10) [0]).balance * (1/100)))
    ∧ (interestPartsOf [(1:ℚ)/5] ([(1:ℚ)/5] : List ℚ).sum
        ((initState (3/10) [0]).balance * (1/100))).sum
      = (initState (3/10) [0]).balance * (1/100) :=
  @C4_interest_proration [(1:ℚ)/5] (1/100) (initState (3/10) [0])
    (stepBody [(1:ℚ)/5] (1/100) (initState (3/10) [0]))
    (by simp) (by norm_num [step, initState])

/-- C7: Final-period trimming.  In any period whose pre-trim
`principal_paid` exceeds the remaining balance (and the balance is
positive, as the loop guard guarantees), every `principal_parts[i]` is
scaled by the single factor `balance / principal_paid`, the scaled parts
sum exactly to the remaining balance, `principal_paid` is set to
`balance`, and the post-payment balance is exactly `0` (never
negative). -/
theorem C7_final_trim {mc : List ℚ} {mRate : ℚ} {s : LoopState}
    (hb : 0 < s.balance)
    (htrim : s.balance < (prePrincipalParts mc (s.balance * mRate)).sum) :
    postPrincipalParts mc s.balance (s.balance * mRate)
        = (prePrincipalParts mc (s.balance * mRate)).map
            (fun p => p * (s.balance
              / (prePrincipalParts mc (s.balance * mRate)).sum))
      ∧ (postPrincipalParts mc s.balance (s.balance * mRate)).sum = s.balance
      ∧ postPrincipalPaid mc s.balance (s.balance * mRate) = s.balance
      ∧ (stepBody mc mRate s).balance = 0 := by
  have hpaid : postPrincipalPaid mc s.balance (s.balance * mRate) = s.balance := by
    rw [postPrincipalPaid, if_pos htrim]
  refine ⟨?_, ?_, hpaid, ?_⟩
  · rw [postPrincipalParts]
    simp only [if_pos htrim]
  · rw [postPrincipalParts_sum mc _ _ (le_of_lt hb), hpaid]
  · rw [stepBody_balance, hpaid, sub_self]

theorem C7_final_trim_witness :
    (postPrincipalParts [1] ((initState (1/1000) [0]).balance)
        ((initState (1/1000) [0]).balance * (1/100))).sum
      = (initState (1/1000) [0]).balance
    ∧ (stepBody [1] (1/100) (initState (1/1000) [0])).balance = 0 := by
  have h := @C7_final_trim [1] (1/100) (initState (1/1000) [0])
    (by norm_num [initState])
    (by norm_num [prePrincipalParts, interestPartsOf, initState])
  exact ⟨h.2.1, h.2.2.2⟩

/-- C6 (amended): the only precondition the code validates before the
main loop is the length match: mismatched vectors raise `InvalidInput`
(Python `ValueError`).  Non-positive loan terms are NOT rejected; in
particular `annualRate = 0` makes the scheduled-payment denominator
`(1 + 0/12)^(12·termYears) - 1 = 0` and the formula raises an unhandled
`ZeroDivisionError` (not `InvalidInput`) before the loop. -/
theorem C6_invalid_input (loan rate : ℚ) (T : ℕ) (mc dp : List ℚ) (d fuel : ℕ) :
    (dp.length ≠ mc.length →
        amortization_shared loan rate T mc dp d fuel = .err .invalidInput)
    ∧ (dp.length = mc.length → rate = 0 →
        amortization_shared loan rate T mc dp d fuel = .err .zeroDivision) := by
  constructor
  · intro h
    rw [amortization_shared, if_pos h]
  · intro hlen hrate
    subst hrate
    simp only [amortization_shared]
    rw [if_neg (by simp [hlen])]
    norm_num

theorem C6_invalid_input_witness :
    amortization_shared 100 (1/10) 30 [1] [1, 2] 2 5 = .err .invalidInput
    ∧ amortization_shared 100 0 7 [1] [2] 2 5 = .err .zeroDivision :=
  ⟨(C6_invalid_input 100 (1/10) 30 [1] [1, 2] 2 5).1 (by simp),
   (C6_invalid_input 100 0 7 [1] [2] 2 5).2 (by simp) rfl⟩

/-- C6 counterexample: with `annualRate = 0` (and matching vector
lengths) the engine does NOT raise `InvalidInput` before the loop, as the
claim requires; it hits the division by zero in the scheduled-payment
formula (Python `ZeroDivisionError`). -/
theorem C6_counterexample :
    amortization_shared 100 0 30 [10] [5] 2 10 = .err .zeroDivision
    ∧ AmortError.zeroDivision ≠ AmortError.invalidInput := by
  constructor
  · simp only [amortization_shared]
    rw [if_neg (by simp)]
    norm_num
  · simp

/-- C5 (amended): the loop raises `InsufficientPayment` in a period iff
the total contribution is strictly below that period's
`interest_due = balance * m_rate`; when any error is raised the engine
returns no `(Schedule, YearlyRollup)` pair at all (all-or-nothing); and
an input with `sum(monthlyContribution) < principal * annualRate/12`
raises `InsufficientPayment` in period 1 — PROVIDED `principal > EPS`.
(For `0 < principal ≤ EPS = 1e-6` the loop body never runs and the engine
returns an empty schedule instead; see the counterexample.) -/
theorem C5_insufficient (loan rate : ℚ) (T : ℕ) (mc dp : List ℚ) (d fuel : ℕ) :
    (∀ s : LoopState, step mc (rate / 12) s = .error .insufficientPayment
        ↔ mc.sum < s.balance * (rate / 12))
    ∧ (∀ e, amortization_shared loan rate T mc dp d fuel = .err e →
        ∀ sched yearly,
          amortization_shared loan rate T mc dp d fuel ≠ .ok sched yearly)
    ∧ (dp.length = mc.length → 0 < rate → 1 ≤ T → EPS < loan →
        mc.sum < loan * (rate / 12) → 1 ≤ fuel →
        step mc (rate / 12) (initState loan dp) = .error .insufficientPayment
        ∧ amortization_shared loan rate T mc dp d fuel
            = .err .insufficientPayment) := by
  refine ⟨fun s => step_err_insufficient_iff, ?_, ?_⟩
  · intro e he sched yearly hok
    rw [he] at hok
    exact absurd hok (by simp)
  · intro hlen hrate hT hloan hins hfuel
    have hstep : step mc (rate / 12) (initState loan dp)
        = .error .insufficientPayment :=
      step_err_insufficient_iff.mpr hins
    refine ⟨hstep, ?_⟩
    have hden : (1 + rate / 12) ^ (T * 12) - 1 ≠ 0 := by
      have h1 : (1:ℚ) < 1 + rate / 12 := by
        have : (0:ℚ) < rate / 12 := div_pos hrate (by norm_num)
        linarith
      have h2 : (1:ℚ) < (1 + rate / 12) ^ (T * 12) :=
        one_lt_pow h1 (by omega)
      linarith
    simp only [amortization_shared]
    rw [if_neg (by simp [hlen]), if_neg hden]
    obtain ⟨fuel2, rfl⟩ : ∃ f2, fuel = f2 + 1 := ⟨fuel - 1, by omega⟩
    rw [runLoop_succ_err hloan hstep]

theorem C5_insufficient_witness :
    step [1] ((3/25) / 12) (initState 1200 [0]) = .error .insufficientPayment
    ∧ amortization_shared 1200 (3/25) 1 [1] [0] 2 1 = .err .insufficientPayment :=
  (C5_insufficient 1200 (3/25) 1 [1] [0] 2 1).2.2 (by simp) (by norm_num)
    (le_refl 1) (by norm_num [EPS]) (by norm_num) (le_refl 1)

/-- C5 counterexample: an input satisfying all the spec's preconditions
(`principal > 0`, `annualRate > 0`, equal-length non-negative vectors)
with `sum(monthlyContribution) < principal * annualRate/12`, on which the
engine does NOT raise `InsufficientPayment`: with
`principal = 1e-7 ≤ EPS` the `while balance > 1e-6` guard is false at
once, the loop never runs, and an empty schedule is returned. -/
theorem C5_counterexample :
    (([0] : List ℚ).sum < (1/10000000) * (12 / 12) ∧ (0:ℚ) < 1/10000000)
    ∧ amortization_shared (1/10000000) 12 1 [0] [0] 2 5 = .ok [] [] := by
  constructor
  · constructor <;> norm_num
  · norm_num [amortization_shared, runLoop, initState, EPS, yearlyRollup]

/-- C3 (amended): the loop terminates — some fuel reaches `.done` —
whenever `sum(monthlyContribution)` STRICTLY exceeds
`principal * m_rate` (with `principal ≥ 0`, `m_rate ≥ 0`): then every
period's interest-coverage check passes strictly and the balance
decreases by at least the fixed amount `sum(mc) - principal * m_rate`
each period until the trimming step drives it to 0.  The claim's stronger
statement — that passing the (non-strict) check already forces strictly
positive principal reduction — is false: when
`sum(monthlyContribution) = interestDue` the check passes yet the balance
never changes, and the loop runs forever (see the counterexample). -/
theorem C3_termination (loan mRate : ℚ) (mc dp : List ℚ)
    (hloan : 0 ≤ loan) (hm : 0 ≤ mRate) (hcov : loan * mRate < mc.sum) :
    ∃ fuel s₁, runLoop mc mRate fuel (initState loan dp) = .done s₁ := by
  have hδpos : 0 < mc.sum - loan * mRate := by linarith
  have hSpos : 0 < mc.sum := lt_of_le_of_lt (mul_nonneg hloan hm) hcov
  have hEPS : (0:ℚ) < EPS := by rw [EPS]; norm_num
  have key : ∀ n : ℕ, ∀ s : LoopState, s.balance ≤ loan →
      s.balance ≤ EPS + n * (mc.sum - loan * mRate) →
      ∃ s₁, runLoop mc mRate n s = .done s₁ := by
    intro n
    induction n with
    | zero =>
        intro s hsl hsb
        have hb : ¬ EPS < s.balance := by
          push_neg
          simpa using hsb
        exact ⟨s, runLoop_of_le hb⟩
    | succ n ih =>
        intro s hsl hsb
        by_cases hb : EPS < s.balance
        · have hbpos : (0:ℚ) < s.balance := lt_trans hEPS hb
          have hIle : s.balance * mRate ≤ loan * mRate :=
            mul_le_mul_of_nonneg_right hsl hm
          have hcov2 : ¬ mc.sum < s.balance * mRate := by
            push_neg
            linarith
          have hzero : ¬ (mc.sum = 0 ∧ mc ≠ []) := by
            rintro ⟨h0, -⟩
            rw [h0] at hSpos
            exact lt_irrefl 0 hSpos
          have hstep : step mc mRate s = .ok (stepBody mc mRate s) :=
            step_ok_iff.mpr ⟨hcov2, hzero, rfl⟩
          rw [runLoop_succ_ok hb hstep]
          apply ih
          · rw [stepBody_balance]
            have := postPrincipalPaid_nonneg mc s.balance (s.balance * mRate)
              hcov2 (Or.inl (ne_of_gt hSpos)) (le_of_lt hbpos)
            linarith
          · rw [stepBody_balance, postPrincipalPaid]
            split_ifs with htrim
            · have : (0:ℚ) ≤ (n:ℚ) * (mc.sum - loan * mRate) :=
                mul_nonneg (Nat.cast_nonneg n) (le_of_lt hδpos)
              linarith
            · rw [prePrincipalParts_sum mc _ (ne_of_gt hSpos)]
              push_cast at hsb ⊢
              linarith
        · exact ⟨s, runLoop_of_le hb⟩
  obtain ⟨n, hn⟩ := exists_nat_ge (loan / (mc.sum - loan * mRate))
  refine ⟨n, ?_⟩
  apply key n
  · exact le_refl loan
  · show loan ≤ EPS + n * (mc.sum - loan * mRate)
    rw [div_le_iff₀ hδpos] at hn
    linarith

theorem C3_termination_witness :
    ∃ fuel s₁, runLoop [13] (1/100) fuel (initState 1200 [0]) = .done s₁ :=
  C3_termination 1200 (1/100) [13] [0] (by norm_num) (by norm_num) (by norm_num)

/-- Helper for the C3 counterexample: on the boundary input
(`balance = 1200`, `m_rate = 0.01`, `monthly_contrib = [12]`) the
interest-coverage check passes with equality, the step succeeds, and the
balance is unchanged. -/
theorem stall_step (s : LoopState) (hs : s.balance = 1200) :
    step [12] (1/100) s = .ok (stepBody [12] (1/100) s)
    ∧ (stepBody [12] (1/100) s).balance = 1200 := by
  constructor
  · apply step_ok_iff.mpr
    refine ⟨?_, ?_, rfl⟩ <;> norm_num [hs]
  · rw [stepBody_balance, hs, postPrincipalPaid]
    norm_num [prePrincipalParts, interestPartsOf, hs]

/-- Helper for the C3 counterexample: from any state with
`balance = 1200` the loop consumes all its fuel without finishing. -/
theorem stall_loop : ∀ (fuel : ℕ) (s : LoopState), s.balance = 1200 →
    (runLoop [12] (1/100) fuel s).isOutOfFuel = true := by
  intro fuel
  induction fuel with
  | zero =>
      intro s hs
      rw [runLoop_zero_of_gt (by rw [hs, EPS]; norm_num)]
      rfl
  | succ n ih =>
      intro s hs
      obtain ⟨h1, h2⟩ := stall_step s hs
      rw [runLoop_succ_ok (by rw [hs, EPS]; norm_num) h1]
      exact ih _ h2

/-- C3 counterexample: at `principal = 1200`, `m_rate = 0.01`,
`monthlyContribution = [12]` (so `sum(mc) = interestDue` exactly), the
interest-coverage check of step (d) passes but the principal reduction is
zero — the balance never moves — and the loop neither raises
`InsufficientPayment` nor drives the balance to the tolerance for ANY
number of iterations: the claim's termination guarantee is false as
stated. -/
theorem C3_counterexample :
    (∃ s₁, step [12] (1/100) (initState 1200 [0]) = .ok s₁
        ∧ s₁.balance = (initState 1200 [0]).balance)
    ∧ ¬ ∃ fuel,
        (runLoop [12] (1/100) fuel (initState 1200 [0])).isOutOfFuel = false := by
  constructor
  · obtain ⟨h1, h2⟩ := stall_step (initState 1200 [0]) rfl
    exact ⟨_, h1, h2⟩
  · rintro ⟨fuel, hf⟩
    rw [stall_loop fuel (initState 1200 [0]) rfl] at hf
    exact absurd hf (by simp)

/-- C1: Conservation of equity.  For every row of the produced Schedule,
the sum over borrowers of the (rounded) `cumulativeEquity` cells differs
from `sum(downPayment)` plus the sum of the (rounded) `principalPaid`
cells of all rows up to and including it by at most
`(N + k + 1) · (1/2)·10⁻ᵈ` — i.e. the conservation law holds within the
accumulated rounding tolerance of the `N + (k+1)` independently rounded
summands; and on the unrounded trace the law holds EXACTLY: each row's
equity sum equals `sum(downPayment)` plus the exact principal paid so
far. -/
theorem C1_conservation {loan rate : ℚ} {T : ℕ} {mc dp : List ℚ} {d fuel : ℕ}
    {sched : List SRow} {yearly : List YRow}
    (hok : amortization_shared loan rate T mc dp d fuel = .ok sched yearly) :
    (∀ k (hk : k < sched.length),
        |(sched.get ⟨k, hk⟩).cumEquity.sum
            - (dp.sum + ((sched.take (k + 1)).map SRow.principalPaid).sum)|
          ≤ (mc.length + (k + 1)) * (1 / (2 * 10 ^ d)))
    ∧ ∃ s₁, runLoop mc (rate / 12) fuel (initState loan dp) = .done s₁
        ∧ sched = s₁.rows.map (roundRow d)
        ∧ ∀ k (hk : k < s₁.rows.length),
            (s₁.rows.get ⟨k, hk⟩).cumEquity.sum
              = dp.sum + ((s₁.rows.take (k + 1)).map SRow.principalPaid).sum := by
  obtain ⟨hlen, s₁, hrun, hsched, -⟩ := amort_ok_elim hok
  have hInv := (runLoop_done_inv hrun (LoopInv_init loan dp mc hlen)).1
  refine ⟨?_, s₁, hrun, hsched, hInv.rowSum⟩
  subst hsched
  intro k hk
  have hk2 : k < s₁.rows.length := by simpa using hk
  have hget : (s₁.rows.map (roundRow d)).get ⟨k, hk⟩
      = roundRow d (s₁.rows.get ⟨k, hk2⟩) := by
    simp [List.get_eq_getElem]
  have htake : (s₁.rows.map (roundRow d)).take (k + 1)
      = (s₁.rows.take (k + 1)).map (roundRow d) := by
    rw [List.map_take]
  rw [hget, htake]
  have hRmem : s₁.rows.get ⟨k, hk2⟩ ∈ s₁.rows := List.get_mem _ _ _
  have hlenR : (s₁.rows.get ⟨k, hk2⟩).cumEquity.length = mc.length :=
    hInv.rowLen _ hRmem
  have e2 : ((s₁.rows.take (k + 1)).map (roundRow d)).map SRow.principalPaid
      = ((s₁.rows.take (k + 1)).map SRow.principalPaid).map (roundTo d) := by
    simp only [List.map_map]
    rfl
  have hplen : ((s₁.rows.take (k + 1)).map SRow.principalPaid).length = k + 1 := by
    simp only [List.length_map, List.length_take]
    omega
  have hA := abs_sum_map_roundTo_sub d (s₁.rows.get ⟨k, hk2⟩).cumEquity
  have hB := abs_sum_map_roundTo_sub d
    ((s₁.rows.take (k + 1)).map SRow.principalPaid)
  have hExact := hInv.rowSum k hk2
  rw [hlenR] at hA
  rw [hplen] at hB
  show |((s₁.rows.get ⟨k, hk2⟩).cumEquity.map (roundTo d)).sum
      - (dp.sum + (((s₁.rows.take (k + 1)).map (roundRow d)).map
          SRow.principalPaid).sum)| ≤ _
  rw [e2]
  have key : ((s₁.rows.get ⟨k, hk2⟩).cumEquity.map (roundTo d)).sum
        - (dp.sum + ((((s₁.rows.take (k + 1)).map SRow.principalPaid)).map
            (roundTo d)).sum)
      = (((s₁.rows.get ⟨k, hk2⟩).cumEquity.map (roundTo d)).sum
          - (s₁.rows.get ⟨k, hk2⟩).cumEquity.sum)
        - (((((s₁.rows.take (k + 1)).map SRow.principalPaid)).map
            (roundTo d)).sum
          - ((s₁.rows.take (k + 1)).map SRow.principalPaid).sum) := by
    rw [hExact]
    ring
  rw [key]
  calc |_ - _| ≤ _ := abs_sub _ _
    _ ≤ (mc.length : ℚ) * (1 / (2 * 10 ^ d))
          + ((k : ℚ) + 1) * (1 / (2 * 10 ^ d)) := by
        apply add_le_add hA
        convert hB using 2
        push_cast
        ring
    _ = ((mc.length : ℚ) + ((k : ℚ) + 1)) * (1 / (2 * 10 ^ d)) := by ring

theorem C1_conservation_witness :
    |(schedEx.get ⟨1, by norm_num [schedEx]⟩).cumEquity.sum
        - (([0] : List ℚ).sum + ((schedEx.take 2).map SRow.principalPaid).sum)|
      ≤ ((([(1:ℚ)/5] : List ℚ).length : ℚ) + (1 + 1)) * (1 / (2 * 10 ^ 2)) :=
  (C1_conservation amort_eval2).1 1 (by norm_num [schedEx])

/-- C2 (amended): Monotonic payoff.  The (rounded) `loanBalance` column
of the produced Schedule is non-increasing.  On the unrounded trace,
every row strictly before the final one has balance > EPS = 1e-6 > 0
(the displayed, rounded cell can still read 0), and the final row's
balance lies in [0, EPS]; hence the final DISPLAYED balance is exactly 0
whenever `roundingDigits ≤ 5`.  For `roundingDigits ≥ 7` the final cell
can be nonzero (see the counterexample), so "equals 0 within
roundingDigits precision" does not hold for arbitrary `roundingDigits`. -/
theorem C2_monotone_payoff {loan rate : ℚ} {T : ℕ} {mc dp : List ℚ} {d fuel : ℕ}
    {sched : List SRow} {yearly : List YRow}
    (hok : amortization_shared loan rate T mc dp d fuel = .ok sched yearly) :
    List.Chain' (fun a b => b.loanBalance ≤ a.loanBalance) sched
    ∧ (d ≤ 5 → ∀ r ∈ sched.getLast?, r.loanBalance = 0)
    ∧ ∃ s₁, runLoop mc (rate / 12) fuel (initState loan dp) = .done s₁
        ∧ sched = s₁.rows.map (roundRow d)
        ∧ (∀ k (hk : k + 1 < s₁.rows.length),
            EPS < (s₁.rows.get ⟨k, Nat.lt_of_succ_lt hk⟩).loanBalance)
        ∧ (∀ r ∈ s₁.rows.getLast?, 0 ≤ r.loanBalance ∧ r.loanBalance ≤ EPS) := by
  obtain ⟨hlen, s₁, hrun, hsched, -⟩ := amort_ok_elim hok
  obtain ⟨hInv, hbal⟩ := runLoop_done_inv hrun (LoopInv_init loan dp mc hlen)
  have hlastfacts : ∀ r ∈ s₁.rows.getLast?,
      0 ≤ r.loanBalance ∧ r.loanBalance ≤ EPS := by
    intro r hr
    simp only [Option.mem_def] at hr
    refine ⟨hInv.balNonneg r (List.mem_of_getLast?_eq_some hr), ?_⟩
    rcases hInv.link with ⟨hnil, -, -⟩ | ⟨r2, hr2, hb2, -⟩
    · rw [hnil] at hr
      simp at hr
    · rw [hr2] at hr
      injection hr with hE
      rw [← hE, hb2]
      exact hbal
  refine ⟨?_, ?_, s₁, hrun, hsched, hInv.balPos, hlastfacts⟩
  · subst hsched
    rw [List.chain'_map]
    exact hInv.balChain.imp fun a b hab => roundTo_mono d hab
  · intro hd r hr
    subst hsched
    rw [List.getLast?_map] at hr
    simp only [Option.mem_def, Option.map_eq_some'] at hr
    obtain ⟨r0, hr0, rfl⟩ := hr
    have h0 := hlastfacts r0 hr0
    show roundTo d r0.loanBalance = 0
    exact roundTo_eq_zero_of_small d h0.1 h0.2 hd

theorem C2_monotone_payoff_witness :
    List.Chain' (fun a b => b.loanBalance ≤ a.loanBalance) schedEx
    ∧ ∀ r ∈ schedEx.getLast?, r.loanBalance = 0 :=
  ⟨(C2_monotone_payoff amort_eval2).1,
   (C2_monotone_payoff amort_eval2).2.1 (by norm_num)⟩

/-- C2 counterexample: a run on which the final Schedule row's
`loanBalance` cell is NOT 0 at the input's `roundingDigits`: with
`principal = 2e-6`, `annualRate = 0.36`, `monthlyContribution = [1.5e-6]`
and `roundingDigits = 7`, the loop exits (without trimming) at exact
balance `6e-7 ≤ EPS`, and the final displayed balance is
`6e-7 = 3/5000000 ≠ 0` — more than an order of magnitude above the
`10⁻⁷` precision the claim promises. -/
theorem C2_counterexample :
    amortization_shared (1/500000) (9/25) 1 [3/2000000] [0] 7 10
        = .ok schedEx7 yearlyEx7
    ∧ schedEx7.getLast? = some ⟨1, 7/5000000, 1/10000000, 3/5000000, [7/5000000]⟩
    ∧ ((3:ℚ)/5000000 ≠ 0 ∧ ¬ |(3:ℚ)/5000000| ≤ 1 / 10 ^ 7) := by
  refine ⟨amort_eval7, ?_, by norm_num,
    by rw [abs_of_pos (by norm_num)]; norm_num⟩
  rw [schedEx7]
  rfl

theorem forall₂_le_map_roundTo {d : ℕ} :
    ∀ {a b : List ℚ}, List.Forall₂ (· ≤ ·) a b →
      List.Forall₂ (· ≤ ·) (a.map (roundTo d)) (b.map (roundTo d)) := by
  intro a b h
  induction h with
  | nil => simp
  | cons hxy _ ih =>
      simp only [List.map_cons]
      exact List.Forall₂.cons (roundTo_mono d hxy) ih

/-- C10 (implicit): per-borrower equity monotonicity.  With non-negative
contribution and down-payment vectors: whenever the interest-coverage
check passes (`interestDue ≤ sum(mc)`) every borrower's principal part is
non-negative, both before and after final-period trimming; consequently,
along any successful run, each borrower's cumulative-equity column is
non-decreasing row to row (exactly, and also after display rounding) and
its first row dominates that borrower's down payment. -/
theorem C10_equity_monotone {loan rate : ℚ} {T : ℕ} {mc dp : List ℚ} {d fuel : ℕ}
    {sched : List SRow} {yearly : List YRow}
    (hmc : ∀ c ∈ mc, 0 ≤ c) (hdp : ∀ x ∈ dp, 0 ≤ x)
    (hok : amortization_shared loan rate T mc dp d fuel = .ok sched yearly) :
    (∀ I : ℚ, I ≤ mc.sum → ∀ p ∈ prePrincipalParts mc I, 0 ≤ p)
    ∧ (∀ b I : ℚ, I ≤ mc.sum → 0 ≤ b → ∀ p ∈ postPrincipalParts mc b I, 0 ≤ p)
    ∧ ∃ s₁, runLoop mc (rate / 12) fuel (initState loan dp) = .done s₁
        ∧ sched = s₁.rows.map (roundRow d)
        ∧ List.Chain'
            (fun a b => List.Forall₂ (· ≤ ·) a.cumEquity b.cumEquity) s₁.rows
        ∧ (∀ r₀ ∈ s₁.rows.head?, List.Forall₂ (· ≤ ·) dp r₀.cumEquity)
        ∧ List.Chain'
            (fun a b => List.Forall₂ (· ≤ ·) a.cumEquity b.cumEquity) sched := by
  obtain ⟨hlen, s₁, hrun, hsched, -⟩ := amort_ok_elim hok
  have hE := runLoop_done_equity hmc hrun (LoopInv_init loan dp mc hlen)
    (EquityInv_init loan dp hdp)
  refine ⟨fun I hI => prePrincipalParts_nonneg mc I hmc hI,
          fun b I hI hb => postPrincipalParts_nonneg mc b I hmc hI hb,
          s₁, hrun, hsched, hE.chain, hE.head, ?_⟩
  subst hsched
  rw [List.chain'_map]
  exact hE.chain.imp fun a b hab => forall₂_le_map_roundTo hab

theorem C10_equity_monotone_witness :
    ∃ s₁, runLoop [(1:ℚ)/5] ((3/25) / 12) 10 (initState (3/10) [0]) = .done s₁
      ∧ List.Chain'
          (fun a b => List.Forall₂ (· ≤ ·) a.cumEquity b.cumEquity) s₁.rows := by
  obtain ⟨-, -, s₁, h1, -, h3, -, -⟩ :=
    C10_equity_monotone (by norm_num) (by norm_num) amort_eval2
  exact ⟨s₁, h1, h3⟩

theorem sum_map_div (l : List ℚ) (t : ℚ) :
    (l.map fun e => e / t).sum = l.sum / t := by
  induction l with
  | nil => simp
  | cons a u ih => simp [ih, add_div]

/-- Helper: the payment-number column of the rounded schedule of any
successful run is `1, 2, …, K`. -/
theorem sched_pmtNos {loan : ℚ} {dp mc : List ℚ} {mRate : ℚ} {d fuel : ℕ}
    {s₁ : LoopState}
    (hrun : runLoop mc mRate fuel (initState loan dp) = .done s₁)
    (hlen : dp.length = mc.length) :
    (s₁.rows.map (roundRow d)).map SRow.pmtNo
      = List.range' 1 (s₁.rows.map (roundRow d)).length := by
  have hInv := (runLoop_done_inv hrun (LoopInv_init loan dp mc hlen)).1
  rw [List.map_map]
  have e : SRow.pmtNo ∘ roundRow d = SRow.pmtNo := rfl
  rw [e, hInv.pmtNos, List.length_map, hInv.pmtEq]

/-- C8 (amended): Share normalization.  For every YearRow of the
roll-up, `totalEquity` is the sum of that row's (rounded) equities and
`share[i] = cumulativeEquity[i] / totalEquity`; and WHENEVER
`totalEquity ≠ 0` the shares sum to exactly 1 and each lies in `[0, 1]`
(given the spec's non-negativity preconditions on the input vectors).
When `totalEquity = 0` — reachable, see the counterexample — the claimed
normalization fails (pandas produces NaN there). -/
theorem C8_share_normalization {loan rate : ℚ} {T : ℕ} {mc dp : List ℚ}
    {d fuel : ℕ} {sched : List SRow} {yearly : List YRow}
    (hmc : ∀ c ∈ mc, 0 ≤ c) (hdp : ∀ x ∈ dp, 0 ≤ x)
    (hok : amortization_shared loan rate T mc dp d fuel = .ok sched yearly) :
    ∀ yr ∈ yearly, yr.totalEquity = yr.cumEquity.sum
      ∧ yr.share = yr.cumEquity.map (fun e => e / yr.totalEquity)
      ∧ (yr.totalEquity ≠ 0 →
          yr.share.sum = 1 ∧ ∀ x ∈ yr.share, 0 ≤ x ∧ x ≤ 1) := by
  obtain ⟨hlen, s₁, hrun, hsched, hyear⟩ := amort_ok_elim hok
  have hE := runLoop_done_equity hmc hrun (LoopInv_init loan dp mc hlen)
    (EquityInv_init loan dp hdp)
  have hpmt : sched.map SRow.pmtNo = List.range' 1 sched.length := by
    rw [hsched]
    exact sched_pmtNos hrun hlen
  obtain ⟨-, -, hrows⟩ := yearlyRollup_spec hpmt
  intro yr hyr
  rw [hyear] at hyr
  obtain ⟨r, hlast, hbal, hcum, htot, hshare⟩ := hrows yr hyr
  refine ⟨by rw [htot, hcum], by rw [hshare, hcum, htot], ?_⟩
  intro hne
  have hrmem : r ∈ sched :=
    (List.mem_filter.mp (List.mem_of_getLast?_eq_some hlast)).1
  have hnn : ∀ x ∈ r.cumEquity, 0 ≤ x := by
    rw [hsched] at hrmem
    obtain ⟨r0, hr0, rfl⟩ := List.mem_map.mp hrmem
    intro x hx
    obtain ⟨x0, hx0, rfl⟩ := List.mem_map.mp hx
    exact roundTo_nonneg d (hE.nonnegRows r0 hr0 x0 hx0)
  have htot0 : 0 ≤ r.cumEquity.sum := List.sum_nonneg hnn
  rw [htot] at hne
  have htotpos : 0 < r.cumEquity.sum := lt_of_le_of_ne htot0 (Ne.symm hne)
  constructor
  · rw [hshare, sum_map_div, div_self (ne_of_gt htotpos)]
  · intro x hx
    rw [hshare] at hx
    obtain ⟨e, he, rfl⟩ := List.mem_map.mp hx
    refine ⟨div_nonneg (hnn e he) htot0, ?_⟩
    rw [div_le_one htotpos]
    exact List.single_le_sum hnn e he

theorem C8_share_normalization_witness :
    ∃ yr, yr ∈ yearlyEx ∧ yr.share.sum = 1 := by
  have h := C8_share_normalization (by norm_num) (by norm_num) amort_eval2
  refine ⟨⟨1, [3/10], 0, 3/10, [1]⟩, by simp [yearlyEx], ?_⟩
  exact ((h ⟨1, [3/10], 0, 3/10, [1]⟩ (by simp [yearlyEx])).2.2 (by norm_num)).1

/-- C8 counterexample: a successful run (all preconditions met) whose
single YearRow has `totalEquity = 0` — at `roundingDigits = 0` every
equity cell of the schedule rounds to 0 — so the shares are `0/0` (in ℚ:
0; in pandas: NaN) and their sum is 0, not 1. -/
theorem C8_counterexample :
    amortization_shared (3/10) (3/25) 1 [1/5] [0] 0 10 = .ok schedEx0 yearlyEx0
    ∧ yearlyEx0 = [⟨1, [0], 0, 0, [0]⟩]
    ∧ ({ year := 1, cumEquity := [0], loanBalance := 0, totalEquity := 0,
         share := [(0:ℚ)] } : YRow).share.sum ≠ 1 := by
  refine ⟨amort_eval0, rfl, by norm_num⟩

/-- C9 (amended): Yearly roll-up semantics.  Every Schedule row is
assigned to year `(paymentNumber - 1) div 12 + 1`; the YearlyRollup's
`Year` column is exactly `1, 2, …, ⌈K/12⌉` in ascending order (so it has
`⌈K/12⌉ = (K + 11) div 12` rows, where `K = len(Schedule)`); each
YearRow's `loanBalance` and `cumulativeEquity` come from the LAST
schedule row of its year bucket; and the Schedule is non-empty whenever
the run succeeds AND `principal > EPS = 1e-6`.  (For
`0 < principal ≤ EPS` the loop body never runs and the schedule is empty
— see the counterexample — so the claim's unconditional non-emptiness
fails.) -/
theorem C9_yearly_rollup {loan rate : ℚ} {T : ℕ} {mc dp : List ℚ}
    {d fuel : ℕ} {sched : List SRow} {yearly : List YRow}
    (hok : amortization_shared loan rate T mc dp d fuel = .ok sched yearly) :
    yearly.map YRow.year = List.range' 1 ((sched.length + 11) / 12)
    ∧ yearly.length = (sched.length + 11) / 12
    ∧ (∀ yr ∈ yearly,
        ∃ r, (sched.filter fun rr => yearOf rr.pmtNo = yr.year).getLast? = some r
          ∧ yr.loanBalance = r.loanBalance ∧ yr.cumEquity = r.cumEquity)
    ∧ (EPS < loan → sched ≠ []) := by
  obtain ⟨hlen, s₁, hrun, hsched, hyear⟩ := amort_ok_elim hok
  have hpmt : sched.map SRow.pmtNo = List.range' 1 sched.length := by
    rw [hsched]
    exact sched_pmtNos hrun hlen
  obtain ⟨hmap, hcount, hrows⟩ := yearlyRollup_spec hpmt
  refine ⟨by rw [hyear]; exact hmap, by rw [hyear]; exact hcount, ?_, ?_⟩
  · intro yr hyr
    rw [hyear] at hyr
    obtain ⟨r, h1, h2, h3, -, -⟩ := hrows yr hyr
    exact ⟨r, h1, h2, h3⟩
  · intro hloan
    have hgrow := (runLoop_done_rows hrun).2 hloan
    rw [hsched]
    intro hnil
    rw [List.map_eq_nil_iff] at hnil
    rw [hnil] at hgrow
    simp [initState] at hgrow

theorem C9_yearly_rollup_witness :
    yearlyEx.map YRow.year = List.range' 1 ((schedEx.length + 11) / 12)
    ∧ yearlyEx.length = (schedEx.length + 11) / 12 :=
  ⟨(C9_yearly_rollup amort_eval2).1, (C9_yearly_rollup amort_eval2).2.1⟩

/-- C9 counterexample: an input satisfying every precondition
(`principal > 0`, `annualRate > 0`, equal-length non-negative vectors,
`termYears ≥ 1`) on which the run succeeds, the interest-coverage check
never fails (the loop body never executes), and yet the Schedule is
EMPTY: `principal = 1e-7 ≤ EPS`, so `while balance > 1e-6` is false
immediately, refuting the claim's "Schedule is non-empty" guarantee. -/
theorem C9_counterexample :
    ((0:ℚ) < 1/10000000 ∧ (0:ℚ) < 12
      ∧ ([0] : List ℚ).length = ([1] : List ℚ).length ∧ (0:ℚ) ≤ 1)
    ∧ amortization_shared (1/10000000) 12 1 [1] [0] 2 10 = .ok [] [] := by
  refine ⟨⟨by norm_num, by norm_num, rfl, by norm_num⟩, ?_⟩
  norm_num [amortization_shared, runLoop, initState, EPS, yearlyRollup]
